import Mathlib

set_option maxHeartbeats 1000000

/-! Verification of the MITRE ATT&CK Navigator heatmap generator.

Shallow embedding of the two source files:
- gen_heatmap.py : search_groups, aggregate_techniques, filter_by_threshold,
  build_layer;
- relationships.py : get_related and the wrapper functions built on it.

Python dicts are modelled as insertion-ordered association lists (a key is
stored at most once; assignment to an existing key keeps its position,
assignment to a fresh key appends at the end), matching CPython semantics.
Python string operations used by the code are modelled over the character
list of a Lean String. -/

namespace AttackHeatmap

/-! ## Python dict model for ScoreMap (dict[tuple[str, str], int]) -/

/-- A ScoreKey is a (tactic_name, technique_id) pair, the key type of the
dictionary built by aggregate_techniques. -/
abbrev ScoreKey := String × String

/-- The ScoreMap: a Python dict keyed by ScoreKey with Nat scores, modelled
as an insertion-ordered association list. -/
abbrev ScoreMap := List (ScoreKey × Nat)

/-- Python technique_scores.get(key, 0). -/
def dget (d : ScoreMap) (k : ScoreKey) : Nat :=
  match d with
  | [] => 0
  | p :: rest => if p.1 = k then p.2 else dget rest k

/-- Python technique_scores[key] = v : replace in place when the key exists
(keeping its position), append a new entry otherwise. -/
def dset (d : ScoreMap) (k : ScoreKey) (v : Nat) : ScoreMap :=
  match d with
  | [] => [(k, v)]
  | p :: rest => if p.1 = k then (k, v) :: rest else p :: dset rest k v

/-! ## String helpers used by gen_heatmap.py -/

/-- Python "'.' in attack_id": the identifier contains a dot. -/
def containsDot (s : String) : Bool := s.toList.contains '.'

/-- Python "attack_id.split('.')[0]": everything before the first dot
(the whole string when there is no dot). -/
def parent_id (s : String) : String :=
  String.mk (s.toList.takeWhile (fun c => !(c = '.')))

/-! ## aggregate_techniques (gen_heatmap.py lines 209-262) -/

/-- A technique STIX object as consumed by aggregate_techniques: its STIX id
(passed to mitre.get_attack_id) and the phase_name of each of its
kill_chain_phases (a missing kill_chain_phases attribute is the empty
list). -/
structure TechObj where
  tid : String
  phases : List String
deriving DecidableEq

/-- A STIX intrusion-set object; aggregate_techniques reads only its id,
search output also carries name and description. -/
structure GroupObj where
  id : String
  name : String
  description : String
deriving DecidableEq

/-- The MitreAttackData facts aggregate_techniques consults: the dict
returned by get_all_techniques_used_by_all_groups (group STIX id to the
technique entries of that group) and the get_attack_id lookup (technique
STIX id to its ATT&CK id, none when unresolvable). -/
structure Dataset where
  group_techniques : List (String × List TechObj)
  attack_id : String → Option String

/-- Membership test and indexing into the group_techniques dict. -/
def lookupGT (gt : List (String × List TechObj)) (g : String) : Option (List TechObj) :=
  match gt with
  | [] => none
  | p :: rest => if p.1 = g then some p.2 else lookupGT rest g

/-- The tech_ids_to_process list of aggregate_techniques: the attack id
itself, plus the parent id when merge_tech is set and the id contains a
dot. -/
def tech_ids_to_process (merge_tech : Bool) (attack_id : String) : List String :=
  if merge_tech && containsDot attack_id then [attack_id, parent_id attack_id]
  else [attack_id]

/-- The body of the phase loop of aggregate_techniques: increment the score
of (tactic_name, tech_id) for every tech_id to process. -/
def processPhase (merge_tech : Bool) (attack_id tactic_name : String)
    (scores : ScoreMap) : ScoreMap :=
  (tech_ids_to_process merge_tech attack_id).foldl
    (fun s tech_id => dset s (tactic_name, tech_id) (dget s (tactic_name, tech_id) + 1))
    scores

/-- The body of the entry loop of aggregate_techniques: skip entries whose
attack id is unresolvable (None) or falsy (empty string), skip entries
without kill chain phases, and otherwise run the phase loop. -/
def processEntry (ds : Dataset) (merge_tech : Bool) (scores : ScoreMap)
    (entry : TechObj) : ScoreMap :=
  match ds.attack_id entry.tid with
  | none => scores
  | some attack_id =>
    if attack_id = "" then scores
    else if entry.phases = [] then scores
    else entry.phases.foldl
      (fun s tactic_name => processPhase merge_tech attack_id tactic_name s) scores

/-- aggregate_techniques: fold every group of the list over its technique
entries, starting from the empty dict; groups absent from the
group_techniques dict are skipped. -/
def aggregate_techniques (ds : Dataset) (groups : List GroupObj)
    (merge_tech : Bool) : ScoreMap :=
  groups.foldl
    (fun scores group =>
      match lookupGT ds.group_techniques group.id with
      | none => scores
      | some entries => entries.foldl (processEntry ds merge_tech) scores)
    []

/-! Derived descriptions of the increments performed by aggregate_techniques,
used to state and prove its properties. -/

/-- The keys incremented by one run of the phase loop. -/
def phaseKeys (merge_tech : Bool) (attack_id tactic_name : String) : List ScoreKey :=
  (tech_ids_to_process merge_tech attack_id).map (fun tech_id => (tactic_name, tech_id))

/-- The keys incremented while processing one technique entry. -/
def entryKeys (ds : Dataset) (merge_tech : Bool) (entry : TechObj) : List ScoreKey :=
  match ds.attack_id entry.tid with
  | none => []
  | some attack_id =>
    if attack_id = "" then []
    else entry.phases.foldr (fun tactic_name acc => phaseKeys merge_tech attack_id tactic_name ++ acc) []

/-- The keys incremented while processing the group with STIX id g. -/
def groupKeys (ds : Dataset) (merge_tech : Bool) (g : String) : List ScoreKey :=
  match lookupGT ds.group_techniques g with
  | none => []
  | some entries => entries.foldr (fun entry acc => entryKeys ds merge_tech entry ++ acc) []

/-- Increment the score of each key of the list in turn. -/
def applyKeys (ks : List ScoreKey) (scores : ScoreMap) : ScoreMap :=
  ks.foldl (fun s k => dset s k (dget s k + 1)) scores

/-- The number of occurrences of the key k in a key list. -/
def keyCount (k : ScoreKey) (ks : List ScoreKey) : Nat :=
  ks.countP (fun x => decide (x = k))

/-- All keys incremented by one run of aggregate_techniques, in processing
order. -/
def allKeys (ds : Dataset) (merge_tech : Bool) (groups : List GroupObj) : List ScoreKey :=
  groups.foldr (fun g acc => groupKeys ds merge_tech g.id ++ acc) []

/-! ## filter_by_threshold (gen_heatmap.py lines 265-286) -/

/-- filter_by_threshold: identity at threshold 0, otherwise the dict
comprehension keeping entries whose technique id contains a dot or whose
score is at least the threshold. -/
def filter_by_threshold (technique_scores : ScoreMap) (threshold : Nat) : ScoreMap :=
  if threshold = 0 then technique_scores
  else technique_scores.filter
    (fun p => containsDot p.1.2 || decide (threshold ≤ p.2))

/-! ## build_layer (gen_heatmap.py lines 289-338) -/

/-- Python max over a nonempty list of ints (0 on the empty list, which the
code never reaches). -/
def list_max : List Nat → Nat
  | [] => 0
  | h :: t => t.foldl Nat.max h

/-- The Versions record set on the layer. -/
structure VersionsRec where
  layer : String
  attack : String
  navigator : String
deriving DecidableEq

/-- The Gradient record set on the layer. -/
structure GradientRec where
  colors : List String
  minValue : Nat
  maxValue : Nat
deriving DecidableEq

/-- One Technique record of the layer: technique id, tactic, score. -/
structure TechniqueRec where
  techniqueID : String
  tactic : String
  score : Nat
deriving DecidableEq

/-- The Layer document built by build_layer. -/
structure LayerRec where
  name : String
  domain : String
  description : String
  versions : VersionsRec
  gradient : GradientRec
  techniques : List TechniqueRec
deriving DecidableEq

/-- The DOMAIN constant of gen_heatmap.py. -/
def DOMAIN : String := "enterprise-attack"

/-- The LAYER_VERSION constant of gen_heatmap.py. -/
def LAYER_VERSION : String := "4.5"

/-- The GRADIENT_COLORS constant of gen_heatmap.py. -/
def GRADIENT_COLORS : List String := ["#ff6666ff", "#ffe766ff", "#8ec843ff"]

/-- build_layer: assemble the layer document; max_score is the maximum of
the scores when the dict is nonempty and 1 otherwise, the gradient runs
from 1 to max_score, and every dict entry becomes one technique record. -/
def build_layer (name : String) (technique_scores : ScoreMap)
    (attack_version navigator_version : String) : LayerRec :=
  { name := name
    domain := DOMAIN
    description := "Aggregated techniques for: " ++ name
    versions := { layer := LAYER_VERSION, attack := attack_version, navigator := navigator_version }
    gradient :=
      { colors := GRADIENT_COLORS
        minValue := 1
        maxValue :=
          if technique_scores = [] then 1
          else list_max (technique_scores.map (fun p => p.2)) }
    techniques := technique_scores.map (fun p => { techniqueID := p.1.2, tactic := p.1.1, score := p.2 }) }

/-! ## search_groups (gen_heatmap.py lines 171-206) -/

/-- The MitreAttackData facts search_groups consults: get_groups with
remove_revoked_deprecated=True, and get_objects_by_content restricted to
intrusion-set with remove_revoked_deprecated=True. -/
structure SearchData where
  all_groups : List GroupObj
  by_content : String → List GroupObj

/-- The candidate list search_groups accumulates before deduplication: for
each term in order, all groups for the wildcard star, the content matches
otherwise. -/
def candidates (sd : SearchData) (search_terms : List String) : List GroupObj :=
  search_terms.foldr
    (fun term acc => (if term = "*" then sd.all_groups else sd.by_content term) ++ acc) []

/-- The deduplication loop of search_groups: seen_ids is the set of group
ids already emitted; a group whose id was seen is dropped, any other group
is emitted and its id recorded. -/
def dedupById (seen : List String) : List GroupObj → List GroupObj
  | [] => []
  | g :: rest =>
    if g.id ∈ seen then dedupById seen rest
    else g :: dedupById (g.id :: seen) rest

/-- search_groups: accumulate the matches of every term, then deduplicate
by STIX id keeping first occurrences. -/
def search_groups (sd : SearchData) (search_terms : List String) : List GroupObj :=
  dedupById [] (candidates sd search_terms)

/-! ## relationships.py -/

/-- A STIX relationship object as read by get_related: refs, relationship
type, and the revoked / x_mitre_deprecated flags the filters test. -/
structure Rel where
  source_ref : String
  target_ref : String
  relationship_type : String
  revoked : Bool
  x_mitre_deprecated : Bool
deriving DecidableEq

/-- A STIX domain object as read by get_related: id, type tag, and the
revoked / x_mitre_deprecated flags. -/
structure SDO where
  id : String
  type : String
  revoked : Bool
  x_mitre_deprecated : Bool
deriving DecidableEq

/-- The MemoryStore thesrc: its relationship objects and its domain
objects. -/
structure Store where
  relationships : List Rel
  sdos : List SDO

/-- The first query of get_related: relationships of the requested type
that are neither revoked nor deprecated. -/
def queryRels (thesrc : Store) (rel_type : String) : List Rel :=
  thesrc.relationships.filter
    (fun r => decide (r.relationship_type = rel_type)
      && decide (r.revoked = false) && decide (r.x_mitre_deprecated = false))

/-- The targets query of get_related: domain objects of the requested type
that are not revoked (the deprecated flag is not filtered here). -/
def queryType (thesrc : Store) (type_tag : String) : List SDO :=
  thesrc.sdos.filter
    (fun o => decide (o.type = type_tag) && decide (o.revoked = false))

/-- Python "needle in hay" on strings: substring containment. -/
def isSubstr (needle hay : String) : Bool :=
  hay.toList.tails.any (fun t => needle.toList.isPrefixOf t)

/-- One value of the id_to_related dict: the relationship together with the
related object id taken from its other end. -/
structure RelatedRef where
  relationship : Rel
  id : String
deriving DecidableEq

/-- One value of the final output of get_related: the resolved related
object together with the relationship. -/
structure RelatedObj where
  object : SDO
  relationship : Rel
deriving DecidableEq

/-- The output type of get_related: a dict from STIX id to the list of
resolved (object, relationship) entries. -/
abbrev GetRelatedOut := List (String × List RelatedObj)

/-- The id_to_related update of get_related: append to the existing entry
of the key when present, create a new entry otherwise. -/
def dappendRel (d : List (String × List RelatedRef)) (k : String) (v : RelatedRef) :
    List (String × List RelatedRef) :=
  match d with
  | [] => [(k, [v])]
  | p :: rest => if p.1 = k then (p.1, p.2 ++ [v]) :: rest else p :: dappendRel rest k v

/-- The id_to_related building loop of get_related: for every relationship
whose source_ref contains src_type and whose target_ref contains
target_type, record the far end under the near end (swapped when reverse
is set). -/
def build_related (rels : List Rel) (src_type target_type : String) (reverse : Bool) :
    List (String × List RelatedRef) :=
  rels.foldl
    (fun d r =>
      if isSubstr src_type r.source_ref && isSubstr target_type r.target_ref then
        if reverse then dappendRel d r.target_ref { relationship := r, id := r.source_ref }
        else dappendRel d r.source_ref { relationship := r, id := r.target_ref }
      else d)
    []

/-- The id_to_target assignment: replace in place when the key exists,
append otherwise. -/
def dsetTarget (d : List (String × SDO)) (k : String) (v : SDO) : List (String × SDO) :=
  match d with
  | [] => [(k, v)]
  | p :: rest => if p.1 = k then (k, v) :: rest else p :: dsetTarget rest k v

/-- The id_to_target building loop of get_related. -/
def build_target_index (targets : List SDO) : List (String × SDO) :=
  targets.foldl (fun d t => dsetTarget d t.id t) []

/-- Membership test and indexing into the id_to_target dict. -/
def lookupTarget (d : List (String × SDO)) (k : String) : Option SDO :=
  match d with
  | [] => none
  | p :: rest => if p.1 = k then some p.2 else lookupTarget rest k

/-- get_related (relationships.py lines 5-73): query the non-revoked,
non-deprecated relationships of the given type, index them by the near
end, query the target-type objects that are not revoked, and resolve every
recorded far end against that target set, dropping the entries whose far
end is absent. -/
def get_related (thesrc : Store) (src_type rel_type target_type : String)
    (reverse : Bool) : GetRelatedOut :=
  let relationships := queryRels thesrc rel_type
  let id_to_related := build_related relationships src_type target_type reverse
  let targets := queryType thesrc (if reverse then src_type else target_type)
  let id_to_target := build_target_index targets
  id_to_related.map
    (fun p =>
      (p.1, p.2.filterMap
        (fun rr => (lookupTarget id_to_target rr.id).map
          (fun obj => { object := obj, relationship := rr.relationship }))))

/-- The TypeError message CPython raises for dict + dict. -/
def pyDictAddMsg : String := "TypeError: unsupported operand type for +: dict and dict"

/-- Python + applied to the two dicts returned by get_related: dict defines
no + operator, so evaluation raises TypeError unconditionally. -/
def pyDictAdd (_ : GetRelatedOut) (_ : GetRelatedOut) : Except String GetRelatedOut :=
  Except.error pyDictAddMsg

/-- software_used_by_groups (relationships.py lines 77-80). -/
def software_used_by_groups (thesrc : Store) : Except String GetRelatedOut :=
  pyDictAdd (get_related thesrc "intrusion-set" "uses" "tool" false)
    (get_related thesrc "intrusion-set" "uses" "malware" false)

/-- groups_using_software (relationships.py lines 83-87). -/
def groups_using_software (thesrc : Store) : Except String GetRelatedOut :=
  pyDictAdd (get_related thesrc "intrusion-set" "uses" "tool" true)
    (get_related thesrc "intrusion-set" "uses" "malware" true)

/-- techniques_used_by_groups (relationships.py lines 91-93). -/
def techniques_used_by_groups (thesrc : Store) : GetRelatedOut :=
  get_related thesrc "intrusion-set" "uses" "attack-pattern" false

/-- groups_using_technique (relationships.py lines 96-98). -/
def groups_using_technique (thesrc : Store) : GetRelatedOut :=
  get_related thesrc "intrusion-set" "uses" "attack-pattern" true

/-- techniques_used_by_software (relationships.py lines 102-105). -/
def techniques_used_by_software (thesrc : Store) : Except String GetRelatedOut :=
  pyDictAdd (get_related thesrc "malware" "uses" "attack-pattern" false)
    (get_related thesrc "tool" "uses" "attack-pattern" false)

/-- software_using_technique (relationships.py lines 108-112). -/
def software_using_technique (thesrc : Store) : Except String GetRelatedOut :=
  pyDictAdd (get_related thesrc "malware" "uses" "attack-pattern" true)
    (get_related thesrc "tool" "uses" "attack-pattern" true)

/-- subtechniques_of (relationships.py lines 125-127). -/
def subtechniques_of (thesrc : Store) : GetRelatedOut :=
  get_related thesrc "attack-pattern" "subtechnique-of" "attack-pattern" true

/-- Python equality between a str dict key and an int index: always
False. -/
def pyStrEqInt (_ : String) (_ : Int) : Bool := false

/-- Python d[0] on a dict with str keys: look the key 0 up among the keys;
since a str never equals an int the lookup misses and raises KeyError. -/
def pyDictGetItemIntKey (d : GetRelatedOut) (n : Int) : Except String (List RelatedObj) :=
  match d.find? (fun p => pyStrEqInt p.1 n) with
  | some p => Except.ok p.2
  | none => Except.error "KeyError: 0"

/-- parent_technique_of (relationships.py lines 130-132): index the
get_related dict with the integer 0. -/
def parent_technique_of (thesrc : Store) : Except String (List RelatedObj) :=
  pyDictGetItemIntKey
    (get_related thesrc "attack-pattern" "subtechnique-of" "attack-pattern" false) 0

/-! ## Concrete inputs used to evaluate the definitions -/

/-- The synthetic dataset of spec property 7: group A uses T1055 under
defense-evasion, group B uses T1055 and T1055.001 under the same tactic;
ATT&CK ids resolve to themselves. -/
def dsC4 : Dataset :=
  { group_techniques :=
      [("GA", [{ tid := "T1055", phases := ["defense-evasion"] }]),
       ("GB", [{ tid := "T1055", phases := ["defense-evasion"] },
               { tid := "T1055.001", phases := ["defense-evasion"] }])]
    attack_id := fun s => some s }

/-- Group A of the synthetic dataset. -/
def gA : GroupObj := { id := "GA", name := "Group A", description := "alpha" }

/-- Group B of the synthetic dataset. -/
def gB : GroupObj := { id := "GB", name := "Group B", description := "beta" }

/-- A live uses relationship from a group to a piece of malware. -/
def relC2 : Rel :=
  { source_ref := "intrusion-set--a"
    target_ref := "malware--b"
    relationship_type := "uses"
    revoked := false
    x_mitre_deprecated := false }

/-- The malware object the relationship points at: not revoked, but
deprecated. -/
def sdoC2 : SDO :=
  { id := "malware--b", type := "malware", revoked := false, x_mitre_deprecated := true }

/-- A store holding the single relationship and its deprecated target. -/
def storeC2 : Store := { relationships := [relC2], sdos := [sdoC2] }

/-- The single output entry of get_related on storeC2. -/
def eC2 : RelatedObj := { object := sdoC2, relationship := relC2 }

/-- The single output pair of get_related on storeC2. -/
def pC2 : String × List RelatedObj := ("intrusion-set--a", [eC2])

/-! ## Dict lemmas -/

theorem dget_dset_self (d : ScoreMap) (k : ScoreKey) (v : Nat) :
    dget (dset d k v) k = v := by
  induction d with
  | nil => simp [dset, dget]
  | cons p rest ih =>
    by_cases h : p.1 = k
    · simp [dset, h, dget]
    · simp [dset, h, dget, ih]

theorem dget_dset_ne (d : ScoreMap) (k k' : ScoreKey) (v : Nat) (h : k' ≠ k) :
    dget (dset d k v) k' = dget d k' := by
  induction d with
  | nil => simp [dset, dget, Ne.symm h]
  | cons p rest ih =>
    rw [dset]
    by_cases hp : p.1 = k
    · rw [if_pos hp]
      simp [dget, hp, Ne.symm h]
    · rw [if_neg hp]
      by_cases hq : p.1 = k' <;> simp [dget, hq, ih]

theorem applyKeys_append (ks1 ks2 : List ScoreKey) (s : ScoreMap) :
    applyKeys (ks1 ++ ks2) s = applyKeys ks2 (applyKeys ks1 s) := by
  simp [applyKeys, List.foldl_append]

theorem dget_applyKeys (ks : List ScoreKey) (s : ScoreMap) (k : ScoreKey) :
    dget (applyKeys ks s) k = dget s k + keyCount k ks := by
  induction ks generalizing s with
  | nil => simp [applyKeys, keyCount]
  | cons k0 ks ih =>
    show dget (applyKeys ks (dset s k0 (dget s k0 + 1))) k = _
    rw [ih]
    by_cases h : k0 = k
    · subst h
      rw [dget_dset_self]
      simp [keyCount, List.countP_cons]
      omega
    · rw [dget_dset_ne _ _ _ _ (fun hh => h hh.symm)]
      simp [keyCount, List.countP_cons, h]

theorem keyCount_append (k : ScoreKey) (a b : List ScoreKey) :
    keyCount k (a ++ b) = keyCount k a + keyCount k b := by
  simp [keyCount, List.countP_append]

theorem keyCount_ne_zero_iff (k : ScoreKey) (ks : List ScoreKey) :
    keyCount k ks ≠ 0 ↔ k ∈ ks := by
  rw [keyCount, ← Nat.pos_iff_ne_zero, List.countP_pos_iff]
  simp

/-! ## list_max lemmas -/

theorem list_max_cons_eq (h a : Nat) (t : List Nat) :
    list_max (h :: a :: t) = list_max (Nat.max h a :: t) := rfl

theorem le_list_max_head (h : Nat) (t : List Nat) : h ≤ list_max (h :: t) := by
  induction t generalizing h with
  | nil => exact Nat.le_refl h
  | cons a t ih =>
    rw [list_max_cons_eq]
    exact Nat.le_trans (Nat.le_max_left h a) (ih (Nat.max h a))

theorem list_max_mem (h : Nat) (t : List Nat) : list_max (h :: t) ∈ h :: t := by
  induction t generalizing h with
  | nil => simp [list_max]
  | cons a t ih =>
    rw [list_max_cons_eq]
    have hmem := ih (Nat.max h a)
    rcases List.mem_cons.mp hmem with hm | hm
    · rw [hm]
      by_cases hle : h ≤ a
      · have hx : Nat.max h a = a := Nat.max_eq_right hle
        rw [hx]; simp
      · have hx : Nat.max h a = h := Nat.max_eq_left (Nat.le_of_not_le hle)
        rw [hx]; simp
    · exact List.mem_cons_of_mem _ (List.mem_cons_of_mem _ hm)

theorem le_list_max_of_mem (h x : Nat) (t : List Nat) (hx : x ∈ h :: t) :
    x ≤ list_max (h :: t) := by
  induction t generalizing h with
  | nil =>
    rcases List.mem_cons.mp hx with hm | hm
    · subst hm; exact Nat.le_refl x
    · cases hm
  | cons a t ih =>
    rw [list_max_cons_eq]
    rcases List.mem_cons.mp hx with hm | hm
    · subst hm
      exact Nat.le_trans (Nat.le_max_left x a) (le_list_max_head _ t)
    · rcases List.mem_cons.mp hm with hm2 | hm2
      · subst hm2
        exact Nat.le_trans (Nat.le_max_right h x) (le_list_max_head _ t)
      · exact ih (Nat.max h a) (List.mem_cons_of_mem _ hm2)

/-! ## parent_id lemmas -/

theorem takeWhile_eq_self_forall {p : Char → Bool} :
    ∀ {l : List Char}, l.takeWhile p = l → ∀ a ∈ l, p a = true := by
  intro l
  induction l with
  | nil => intro _ a ha; cases ha
  | cons c t ih =>
    intro h a ha
    cases hc : p c with
    | true =>
      rw [List.takeWhile_cons, hc] at h
      simp only [if_pos] at h
      have ht : t.takeWhile p = t := by
        exact (List.cons.injEq c _ c t).mp h |>.2
      rcases List.mem_cons.mp ha with hm | hm
      · rw [hm]; exact hc
      · exact ih ht a hm
    | false =>
      rw [List.takeWhile_cons, hc] at h
      simp at h

theorem parent_id_ne_self (s : String) (h : containsDot s = true) :
    parent_id s ≠ s := by
  intro he
  have hd : s.toList.takeWhile (fun c => !(c = '.')) = s.toList := by
    have h2 := congrArg String.toList he
    simpa [parent_id] using h2
  have hmem : '.' ∈ s.toList := List.mem_of_elem_eq_true h
  have hx := takeWhile_eq_self_forall hd '.' hmem
  simp at hx

/-! ## Claim theorems: threshold filter and layer builder -/

/-- C5: filter_by_threshold is the identity at threshold 0; at any
threshold its output holds exactly the input entries whose technique id
contains a dot (kept regardless of score) or whose score reaches the
threshold, so a dotted entry is never removed; order is preserved. -/
theorem filter_by_threshold_spec (d : ScoreMap) (t : Nat) :
    filter_by_threshold d 0 = d ∧
    (∀ p : ScoreKey × Nat,
      p ∈ filter_by_threshold d t ↔ p ∈ d ∧ (containsDot p.1.2 = true ∨ t ≤ p.2)) ∧
    (filter_by_threshold d t).Sublist d := by
  refine ⟨by simp [filter_by_threshold], ?_, ?_⟩
  · intro p
    by_cases ht : t = 0
    · subst ht
      simp [filter_by_threshold]
    · simp [filter_by_threshold, ht, List.mem_filter, Bool.or_eq_true, decide_eq_true_iff]
  · by_cases ht : t = 0
    · simp [filter_by_threshold, ht]
    · unfold filter_by_threshold
      rw [if_neg ht]
      exact List.filter_sublist d

/-- C6: filter_by_threshold is idempotent: filtering twice with the same
threshold equals filtering once. -/
theorem filter_by_threshold_idem (d : ScoreMap) (t : Nat) :
    filter_by_threshold (filter_by_threshold d t) t = filter_by_threshold d t := by
  by_cases ht : t = 0
  · simp [filter_by_threshold, ht]
  · unfold filter_by_threshold
    rw [if_neg ht, if_neg ht, List.filter_filter]
    exact List.filter_congr (fun p _ => by rw [Bool.and_self])

/-- C7: the gradient of the layer built by build_layer has minValue 1, and
its maxValue is 1 on an empty ScoreMap and otherwise the maximum score
present (it is one of the scores and bounds every score). -/
theorem build_layer_gradient_spec (name : String) (d : ScoreMap) (av nv : String) :
    (build_layer name d av nv).gradient.minValue = 1 ∧
    (d = [] → (build_layer name d av nv).gradient.maxValue = 1) ∧
    (d ≠ [] →
      (build_layer name d av nv).gradient.maxValue ∈ d.map (fun p => p.2) ∧
      ∀ v ∈ d.map (fun p => p.2), v ≤ (build_layer name d av nv).gradient.maxValue) := by
  refine ⟨rfl, ?_, ?_⟩
  · intro h
    simp [build_layer, h]
  · intro h
    cases d with
    | nil => exact absurd rfl h
    | cons p rest =>
      constructor
      · simp only [build_layer]
        simp only [if_neg (by simp : ¬(p :: rest = []))]
        exact list_max_mem p.2 (rest.map (fun q => q.2))
      · intro v hv
        simp only [build_layer]
        simp only [if_neg (by simp : ¬(p :: rest = []))]
        rw [List.map_cons] at hv
        exact le_list_max_of_mem p.2 v (rest.map (fun q => q.2)) hv

/-! ## Claim theorems: sub-technique merging -/

/-- C3: for a technique occurrence whose resolved attack id contains a dot,
the per-phase step of aggregate_techniques with merge_tech true increments
both the (tactic, id) score and the (tactic, parent id) score by 1 for the
same tactic, and with merge_tech false it increments only the (tactic, id)
score, leaving the parent untouched. -/
theorem processPhase_merge (s : ScoreMap) (attack_id X : String)
    (h : containsDot attack_id = true) :
    dget (processPhase true attack_id X s) (X, attack_id)
      = dget s (X, attack_id) + 1 ∧
    dget (processPhase true attack_id X s) (X, parent_id attack_id)
      = dget s (X, parent_id attack_id) + 1 ∧
    dget (processPhase false attack_id X s) (X, attack_id)
      = dget s (X, attack_id) + 1 ∧
    dget (processPhase false attack_id X s) (X, parent_id attack_id)
      = dget s (X, parent_id attack_id) := by
  have hne : parent_id attack_id ≠ attack_id := parent_id_ne_self attack_id h
  have hkey : ((X, parent_id attack_id) : ScoreKey) ≠ (X, attack_id) :=
    fun hk => hne (congrArg Prod.snd hk)
  have hkey2 : ((X, attack_id) : ScoreKey) ≠ (X, parent_id attack_id) :=
    fun hk => hne (congrArg Prod.snd hk).symm
  have hids : tech_ids_to_process true attack_id = [attack_id, parent_id attack_id] := by
    simp [tech_ids_to_process, h]
  have hids2 : tech_ids_to_process false attack_id = [attack_id] := by
    simp [tech_ids_to_process]
  have e1 : processPhase true attack_id X s
      = dset (dset s (X, attack_id) (dget s (X, attack_id) + 1)) (X, parent_id attack_id)
          (dget (dset s (X, attack_id) (dget s (X, attack_id) + 1)) (X, parent_id attack_id) + 1) := by
    rw [processPhase, hids]
    rfl
  have e2 : processPhase false attack_id X s
      = dset s (X, attack_id) (dget s (X, attack_id) + 1) := by
    rw [processPhase, hids2]
    rfl
  refine ⟨?_, ?_, ?_, ?_⟩
  · rw [e1, dget_dset_ne _ _ _ _ hkey2, dget_dset_self]
  · rw [e1, dget_dset_self, dget_dset_ne _ _ _ _ hkey]
  · rw [e2, dget_dset_self]
  · rw [e2, dget_dset_ne _ _ _ _ hkey]

/-- C3 witness: the sub-technique T1059.001 under the tactic execution. -/
theorem processPhase_merge_witness :
    containsDot "T1059.001" = true ∧
    (dget (processPhase true "T1059.001" "execution" []) ("execution", "T1059.001")
        = dget ([] : ScoreMap) ("execution", "T1059.001") + 1 ∧
      dget (processPhase true "T1059.001" "execution" []) ("execution", parent_id "T1059.001")
        = dget ([] : ScoreMap) ("execution", parent_id "T1059.001") + 1 ∧
      dget (processPhase false "T1059.001" "execution" []) ("execution", "T1059.001")
        = dget ([] : ScoreMap) ("execution", "T1059.001") + 1 ∧
      dget (processPhase false "T1059.001" "execution" []) ("execution", parent_id "T1059.001")
        = dget ([] : ScoreMap) ("execution", parent_id "T1059.001")) :=
  ⟨by decide, processPhase_merge [] "T1059.001" "execution" (by decide)⟩

/-- C4: on the synthetic dataset where group A uses T1055 under
defense-evasion and group B uses T1055 and T1055.001 under the same
tactic, aggregate_techniques with merge_tech true yields exactly the
ScoreMap with (defense-evasion, T1055) scored 3 and
(defense-evasion, T1055.001) scored 1, and build_layer computes a maximum
score of 3 over it. -/
theorem aggregate_synthetic_spec :
    aggregate_techniques dsC4 [gA, gB] true
      = [(("defense-evasion", "T1055"), 3), (("defense-evasion", "T1055.001"), 1)] ∧
    (build_layer "layer" (aggregate_techniques dsC4 [gA, gB] true) "14.1" "5.0.0").gradient.maxValue
      = 3 :=
  ⟨by decide, by decide⟩

/-! ## Deduplication lemmas for search_groups -/

theorem dedupById_find (l : List GroupObj) :
    ∀ seen, ∀ g2 ∈ dedupById seen l,
      g2.id ∉ seen ∧ l.find? (fun g => decide (g.id = g2.id)) = some g2 := by
  induction l with
  | nil => intro seen g2 hg2; cases hg2
  | cons c t ih =>
    intro seen g2 hg2
    rw [dedupById] at hg2
    by_cases hc : c.id ∈ seen
    · rw [if_pos hc] at hg2
      obtain ⟨hnot, hfind⟩ := ih seen g2 hg2
      have hne : ¬(decide (c.id = g2.id) = true) := by
        simp only [decide_eq_true_eq]
        intro he
        exact hnot (he ▸ hc)
      have hfalse : decide (c.id = g2.id) = false := by simpa using hne
      exact ⟨hnot, by simp [List.find?, hfalse, hfind]⟩
    · rw [if_neg hc] at hg2
      rcases List.mem_cons.mp hg2 with he | hm
      · subst he
        refine ⟨hc, ?_⟩
        rw [List.find?_cons_of_pos]
        simp
      · obtain ⟨hnot, hfind⟩ := ih (c.id :: seen) g2 hm
        have h1 : g2.id ∉ seen := fun hs => hnot (List.mem_cons_of_mem _ hs)
        have h2 : ¬(decide (c.id = g2.id) = true) := by
          simp only [decide_eq_true_eq]
          intro he
          exact hnot (he ▸ List.mem_cons_self c.id seen)
        have hfalse : decide (c.id = g2.id) = false := by simpa using h2
        exact ⟨h1, by simp [List.find?, hfalse, hfind]⟩

theorem dedupById_sublist (l : List GroupObj) :
    ∀ seen, (dedupById seen l).Sublist l := by
  induction l with
  | nil => intro seen; exact List.Sublist.refl []
  | cons c t ih =>
    intro seen
    rw [dedupById]
    by_cases hc : c.id ∈ seen
    · rw [if_pos hc]
      exact List.Sublist.cons c (ih seen)
    · rw [if_neg hc]
      exact List.Sublist.cons₂ c (ih (c.id :: seen))

theorem dedupById_nodup (l : List GroupObj) :
    ∀ seen, ((dedupById seen l).map (fun g => g.id)).Nodup := by
  induction l with
  | nil => intro seen; simp [dedupById]
  | cons c t ih =>
    intro seen
    rw [dedupById]
    by_cases hc : c.id ∈ seen
    · rw [if_pos hc]
      exact ih seen
    · rw [if_neg hc]
      rw [List.map_cons, List.nodup_cons]
      refine ⟨?_, ih (c.id :: seen)⟩
      intro hmem
      rcases List.mem_map.mp hmem with ⟨g2, hg2, he⟩
      have := (dedupById_find t (c.id :: seen) g2 hg2).1
      exact this (he ▸ List.mem_cons_self c.id seen)

theorem dedupById_covers (l : List GroupObj) :
    ∀ seen, ∀ g ∈ l, g.id ∈ seen ∨ ∃ g2 ∈ dedupById seen l, g2.id = g.id := by
  induction l with
  | nil => intro seen g hg; cases hg
  | cons c t ih =>
    intro seen g hg
    rw [dedupById]
    by_cases hc : c.id ∈ seen
    · rw [if_pos hc]
      rcases List.mem_cons.mp hg with he | hm
      · rw [he]; exact Or.inl hc
      · exact ih seen g hm
    · rw [if_neg hc]
      rcases List.mem_cons.mp hg with he | hm
      · exact Or.inr ⟨c, List.mem_cons_self _ _, by rw [he]⟩
      · rcases ih (c.id :: seen) g hm with hin | ⟨g2, hg2, he2⟩
        · rcases List.mem_cons.mp hin with he | hs
          · exact Or.inr ⟨c, List.mem_cons_self _ _, he.symm⟩
          · exact Or.inl hs
        · exact Or.inr ⟨g2, List.mem_cons_of_mem _ hg2, he2⟩

/-- C8: search_groups deduplicates by group id: the output ids are
pairwise distinct, the output is a subsequence of the accumulated
per-term candidate list, every candidate id is represented, and each
output group is exactly the first candidate carrying its id (so a group
matching several terms appears once, at the position of its first
match). -/
theorem search_groups_dedup (sd : SearchData) (terms : List String) :
    ((search_groups sd terms).map (fun g => g.id)).Nodup ∧
    (search_groups sd terms).Sublist (candidates sd terms) ∧
    (∀ g ∈ candidates sd terms, ∃ g2 ∈ search_groups sd terms, g2.id = g.id) ∧
    (∀ g2 ∈ search_groups sd terms,
      (candidates sd terms).find? (fun g => decide (g.id = g2.id)) = some g2) := by
  refine ⟨dedupById_nodup _ [], dedupById_sublist _ [], ?_, ?_⟩
  · intro g hg
    rcases dedupById_covers _ [] g hg with hin | h
    · cases hin
    · exact h
  · intro g2 hg2
    exact (dedupById_find _ [] g2 hg2).2

/-! ## Structure of aggregate_techniques as a sequence of increments -/

theorem processPhase_eq_applyKeys (m : Bool) (aid tac : String) (s : ScoreMap) :
    processPhase m aid tac s = applyKeys (phaseKeys m aid tac) s := by
  simp [processPhase, phaseKeys, applyKeys, List.foldl_map]

theorem foldPhases_eq_applyKeys (m : Bool) (aid : String) :
    ∀ (phases : List String) (s : ScoreMap),
      phases.foldl (fun s tac => processPhase m aid tac s) s
        = applyKeys (phases.foldr (fun tac acc => phaseKeys m aid tac ++ acc) []) s := by
  intro phases
  induction phases with
  | nil => intro s; rfl
  | cons tac rest ih =>
    intro s
    rw [List.foldl_cons, List.foldr_cons, applyKeys_append, ← ih, processPhase_eq_applyKeys]

theorem processEntry_eq_applyKeys (ds : Dataset) (m : Bool) (s : ScoreMap) (entry : TechObj) :
    processEntry ds m s entry = applyKeys (entryKeys ds m entry) s := by
  cases hA : ds.attack_id entry.tid with
  | none => simp [processEntry, entryKeys, hA, applyKeys]
  | some aid =>
    by_cases he : aid = ""
    · simp [processEntry, entryKeys, hA, he, applyKeys]
    · by_cases hp : entry.phases = []
      · simp [processEntry, entryKeys, hA, he, hp, applyKeys]
      · simp only [processEntry, entryKeys, hA]
        rw [if_neg he, if_neg he, if_neg hp]
        exact foldPhases_eq_applyKeys m aid entry.phases s

theorem foldEntries_eq_applyKeys (ds : Dataset) (m : Bool) :
    ∀ (entries : List TechObj) (s : ScoreMap),
      entries.foldl (processEntry ds m) s
        = applyKeys (entries.foldr (fun entry acc => entryKeys ds m entry ++ acc) []) s := by
  intro entries
  induction entries with
  | nil => intro s; rfl
  | cons entry rest ih =>
    intro s
    rw [List.foldl_cons, List.foldr_cons, applyKeys_append, ← ih, processEntry_eq_applyKeys]

theorem processGroup_eq_applyKeys (ds : Dataset) (m : Bool) (s : ScoreMap) (g : GroupObj) :
    (match lookupGT ds.group_techniques g.id with
      | none => s
      | some entries => entries.foldl (processEntry ds m) s)
      = applyKeys (groupKeys ds m g.id) s := by
  rw [groupKeys]
  cases hL : lookupGT ds.group_techniques g.id with
  | none => rfl
  | some entries => exact foldEntries_eq_applyKeys ds m entries s

theorem aggregate_eq_applyKeys (ds : Dataset) (gs : List GroupObj) (m : Bool) :
    aggregate_techniques ds gs m = applyKeys (allKeys ds m gs) [] := by
  rw [aggregate_techniques]
  have haux : ∀ (l : List GroupObj) (s : ScoreMap),
      l.foldl
        (fun scores group =>
          match lookupGT ds.group_techniques group.id with
          | none => scores
          | some entries => entries.foldl (processEntry ds m) scores)
        s
        = applyKeys (l.foldr (fun g acc => groupKeys ds m g.id ++ acc) []) s := by
    intro l
    induction l with
    | nil => intro s; rfl
    | cons g rest ih =>
      intro s
      rw [List.foldl_cons, List.foldr_cons, applyKeys_append, ← ih,
        processGroup_eq_applyKeys]
  exact haux gs []

theorem keyCount_allKeys (ds : Dataset) (m : Bool) (gs : List GroupObj) (k : ScoreKey) :
    keyCount k (allKeys ds m gs)
      = (gs.map (fun g => keyCount k (groupKeys ds m g.id))).sum := by
  induction gs with
  | nil => simp [allKeys, keyCount]
  | cons g rest ih =>
    rw [allKeys, List.foldr_cons, keyCount_append, List.map_cons, List.sum_cons]
    rw [allKeys] at ih
    rw [ih]

/-- The score of a key after aggregation is the total number of increment
occurrences of that key over all groups of the list, in any order. -/
theorem dget_aggregate (ds : Dataset) (gs : List GroupObj) (m : Bool) (k : ScoreKey) :
    dget (aggregate_techniques ds gs m) k
      = (gs.map (fun g => keyCount k (groupKeys ds m g.id))).sum := by
  rw [aggregate_eq_applyKeys, dget_applyKeys, keyCount_allKeys]
  simp [dget]

theorem sum_le_one_eq_filter_length (gs : List GroupObj) (f : GroupObj → Nat)
    (hle : ∀ g ∈ gs, f g ≤ 1) :
    (gs.map f).sum = (gs.filter (fun g => decide (f g ≠ 0))).length := by
  induction gs with
  | nil => simp
  | cons g rest ih =>
    have hg : f g ≤ 1 := hle g (List.mem_cons_self _ _)
    have hrest : ∀ g2 ∈ rest, f g2 ≤ 1 := fun g2 h2 => hle g2 (List.mem_cons_of_mem _ h2)
    rw [List.map_cons, List.sum_cons, ih hrest]
    by_cases hz : f g = 0
    · rw [List.filter_cons_of_neg (by simp [hz])]
      rw [hz]
      omega
    · rw [List.filter_cons_of_pos (by simp [hz])]
      have h1 : f g = 1 := by omega
      rw [h1, List.length_cons]
      omega

theorem two_le_length_of_two_mem {α : Type} {l : List α} {a b : α}
    (ha : a ∈ l) (hb : b ∈ l) (hne : a ≠ b) : 2 ≤ l.length := by
  induction l with
  | nil => cases ha
  | cons c t ih =>
    rcases List.mem_cons.mp ha with hac | hat
    · rcases List.mem_cons.mp hb with hbc | hbt
      · exact absurd (hac.trans hbc.symm) hne
      · have : 0 < t.length := List.length_pos.mpr (List.ne_nil_of_mem hbt)
        simp only [List.length_cons]
        omega
    · rcases List.mem_cons.mp hb with hbc | hbt
      · have : 0 < t.length := List.length_pos.mpr (List.ne_nil_of_mem hat)
        simp only [List.length_cons]
        omega
      · have := ih hat hbt
        simp only [List.length_cons]
        omega

/-! ## Key uniqueness invariant of the ScoreMap dict -/

theorem mem_keys_dset (d : ScoreMap) (k : ScoreKey) (v : Nat) :
    ∀ x ∈ (dset d k v).map Prod.fst, x ∈ d.map Prod.fst ∨ x = k := by
  induction d with
  | nil => intro x hx; simp [dset] at hx; exact Or.inr hx
  | cons p rest ih =>
    intro x hx
    rw [dset] at hx
    by_cases hp : p.1 = k
    · rw [if_pos hp] at hx
      rcases List.mem_cons.mp hx with he | hm
      · exact Or.inr he
      · exact Or.inl (List.mem_cons_of_mem _ hm)
    · rw [if_neg hp] at hx
      rcases List.mem_cons.mp hx with he | hm
      · exact Or.inl (he ▸ List.mem_cons_self _ _)
      · rcases ih x hm with h1 | h2
        · exact Or.inl (List.mem_cons_of_mem _ h1)
        · exact Or.inr h2

theorem keys_nodup_dset (d : ScoreMap) (k : ScoreKey) (v : Nat)
    (h : (d.map Prod.fst).Nodup) : ((dset d k v).map Prod.fst).Nodup := by
  induction d with
  | nil => simp [dset]
  | cons p rest ih =>
    rw [List.map_cons, List.nodup_cons] at h
    rw [dset]
    by_cases hp : p.1 = k
    · rw [if_pos hp, List.map_cons, List.nodup_cons]
      exact ⟨hp ▸ h.1, h.2⟩
    · rw [if_neg hp, List.map_cons, List.nodup_cons]
      refine ⟨?_, ih h.2⟩
      intro hmem
      rcases mem_keys_dset rest k v p.1 hmem with h1 | h2
      · exact h.1 h1
      · exact hp h2

theorem keys_nodup_applyKeys (ks : List ScoreKey) (s : ScoreMap)
    (h : (s.map Prod.fst).Nodup) : ((applyKeys ks s).map Prod.fst).Nodup := by
  induction ks generalizing s with
  | nil => exact h
  | cons k0 rest ih =>
    show ((applyKeys rest (dset s k0 (dget s k0 + 1))).map Prod.fst).Nodup
    exact ih _ (keys_nodup_dset s k0 _ h)

/-! ## Claim theorems: score aggregation -/

/-- C1: when every group of the (id-distinct) list contributes at most one
increment to the ScoreKey (X, T), the aggregated score of (X, T) is the
number of groups of the list that use T under tactic X; two distinct such
groups force a score of at least 2. The ScoreMap holds a single entry per
key, and the score does not change when the groups are processed in
another order, nor when the per-group technique occurrences and tactic
phases are reordered. -/
theorem aggregate_score_counts_groups (ds : Dataset) (gs : List GroupObj)
    (m : Bool) (X T : String) (G1 G2 : GroupObj)
    (hnd : (gs.map (fun g => g.id)).Nodup)
    (hcount : ∀ g ∈ gs, keyCount (X, T) (groupKeys ds m g.id) ≤ 1)
    (h1 : G1 ∈ gs) (h2 : G2 ∈ gs) (hne : G1 ≠ G2)
    (hu1 : (X, T) ∈ groupKeys ds m G1.id) (hu2 : (X, T) ∈ groupKeys ds m G2.id) :
    ((aggregate_techniques ds gs m).map Prod.fst).Nodup ∧
    dget (aggregate_techniques ds gs m) (X, T)
      = (gs.filter (fun g => decide ((X, T) ∈ groupKeys ds m g.id))).length ∧
    2 ≤ dget (aggregate_techniques ds gs m) (X, T) ∧
    (∀ gs2 : List GroupObj, gs.Perm gs2 →
      dget (aggregate_techniques ds gs2 m) (X, T)
        = dget (aggregate_techniques ds gs m) (X, T)) ∧
    (∀ ds2 : Dataset,
      (∀ g : String, (groupKeys ds2 m g).Perm (groupKeys ds m g)) →
      dget (aggregate_techniques ds2 gs m) (X, T)
        = dget (aggregate_techniques ds gs m) (X, T)) := by
  have hmain : dget (aggregate_techniques ds gs m) (X, T)
      = (gs.filter (fun g => decide ((X, T) ∈ groupKeys ds m g.id))).length := by
    rw [dget_aggregate,
      sum_le_one_eq_filter_length gs (fun g => keyCount (X, T) (groupKeys ds m g.id)) hcount]
    congr 1
    apply List.filter_congr
    intro g _
    rw [decide_eq_decide]
    exact keyCount_ne_zero_iff (X, T) (groupKeys ds m g.id)
  refine ⟨?_, hmain, ?_, ?_, ?_⟩
  · rw [aggregate_eq_applyKeys]
    exact keys_nodup_applyKeys _ [] (by simp)
  · rw [hmain]
    have hm1 : G1 ∈ gs.filter (fun g => decide ((X, T) ∈ groupKeys ds m g.id)) :=
      List.mem_filter.mpr ⟨h1, decide_eq_true hu1⟩
    have hm2 : G2 ∈ gs.filter (fun g => decide ((X, T) ∈ groupKeys ds m g.id)) :=
      List.mem_filter.mpr ⟨h2, decide_eq_true hu2⟩
    exact two_le_length_of_two_mem hm1 hm2 hne
  · intro gs2 hperm
    rw [dget_aggregate, dget_aggregate]
    exact ((hperm.map (fun g => keyCount (X, T) (groupKeys ds m g.id))).sum_eq).symm
  · intro ds2 hkeys
    rw [dget_aggregate, dget_aggregate]
    apply congrArg
    apply List.map_congr_left
    intro g _
    exact (hkeys g.id).countP_eq _

/-- C1 witness: the two synthetic groups each using T1055 under
defense-evasion once, with merging disabled. -/
theorem aggregate_score_counts_groups_witness :
    2 ≤ dget (aggregate_techniques dsC4 [gA, gB] false) ("defense-evasion", "T1055") :=
  (aggregate_score_counts_groups dsC4 [gA, gB] false "defense-evasion" "T1055" gA gB
    (by decide) (by decide) (by decide) (by decide) (by decide)
    (by decide) (by decide)).2.2.1

/-! ## get_related invariants -/

theorem dappendRel_mem (d : List (String × List RelatedRef)) (k : String) (v : RelatedRef) :
    ∀ kv ∈ dappendRel d k v, ∀ rr ∈ kv.2, (∃ kv2 ∈ d, rr ∈ kv2.2) ∨ rr = v := by
  induction d with
  | nil =>
    intro kv hkv rr hrr
    simp only [dappendRel, List.mem_singleton] at hkv
    subst hkv
    right
    simpa using hrr
  | cons p rest ih =>
    intro kv hkv rr hrr
    rw [dappendRel] at hkv
    by_cases hp : p.1 = k
    · rw [if_pos hp] at hkv
      rcases List.mem_cons.mp hkv with he | hm
      · subst he
        rcases List.mem_append.mp hrr with h1 | h2
        · exact Or.inl ⟨p, List.mem_cons_self _ _, h1⟩
        · right
          simpa using h2
      · exact Or.inl ⟨kv, List.mem_cons_of_mem _ hm, hrr⟩
    · rw [if_neg hp] at hkv
      rcases List.mem_cons.mp hkv with he | hm
      · subst he
        exact Or.inl ⟨kv, List.mem_cons_self _ _, hrr⟩
      · rcases ih kv hm rr hrr with ⟨kv2, hkv2, hrr2⟩ | hv
        · exact Or.inl ⟨kv2, List.mem_cons_of_mem _ hkv2, hrr2⟩
        · exact Or.inr hv

theorem build_related_inv (src_type target_type : String) (rev : Bool) (R : Rel → Prop) :
    ∀ (rels : List Rel) (d : List (String × List RelatedRef)),
      (∀ r ∈ rels, R r) →
      (∀ kv ∈ d, ∀ rr ∈ kv.2, R rr.relationship ∧
        rr.id = (if rev then rr.relationship.source_ref else rr.relationship.target_ref)) →
      ∀ kv ∈ rels.foldl
          (fun d r =>
            if isSubstr src_type r.source_ref && isSubstr target_type r.target_ref then
              if rev then dappendRel d r.target_ref { relationship := r, id := r.source_ref }
              else dappendRel d r.source_ref { relationship := r, id := r.target_ref }
            else d) d,
        ∀ rr ∈ kv.2, R rr.relationship ∧
          rr.id = (if rev then rr.relationship.source_ref else rr.relationship.target_ref) := by
  intro rels
  induction rels with
  | nil => intro d _ hd kv hkv rr hrr; exact hd kv hkv rr hrr
  | cons r rest ih =>
    intro d hR hd kv hkv rr hrr
    rw [List.foldl_cons] at hkv
    refine ih _ (fun r2 h2 => hR r2 (List.mem_cons_of_mem _ h2)) ?_ kv hkv rr hrr
    intro kv2 hkv2 rr2 hrr2
    by_cases hc : (isSubstr src_type r.source_ref && isSubstr target_type r.target_ref) = true
    · rw [if_pos hc] at hkv2
      by_cases hrev : rev = true
      · rw [if_pos hrev] at hkv2
        rcases dappendRel_mem d r.target_ref { relationship := r, id := r.source_ref }
            kv2 hkv2 rr2 hrr2 with ⟨kv3, hkv3, hrr3⟩ | hveq
        · exact hd kv3 hkv3 rr2 hrr3
        · subst hveq
          exact ⟨hR r (List.mem_cons_self _ _), by rw [if_pos hrev]⟩
      · rw [if_neg hrev] at hkv2
        rcases dappendRel_mem d r.source_ref { relationship := r, id := r.target_ref }
            kv2 hkv2 rr2 hrr2 with ⟨kv3, hkv3, hrr3⟩ | hveq
        · exact hd kv3 hkv3 rr2 hrr3
        · subst hveq
          exact ⟨hR r (List.mem_cons_self _ _), by rw [if_neg hrev]⟩
    · rw [if_neg hc] at hkv2
      exact hd kv2 hkv2 rr2 hrr2

theorem dsetTarget_mem (d : List (String × SDO)) (k : String) (v : SDO) :
    ∀ kv ∈ dsetTarget d k v, kv ∈ d ∨ kv = (k, v) := by
  induction d with
  | nil =>
    intro kv hkv
    simp only [dsetTarget, List.mem_singleton] at hkv
    exact Or.inr hkv
  | cons p rest ih =>
    intro kv hkv
    rw [dsetTarget] at hkv
    by_cases hp : p.1 = k
    · rw [if_pos hp] at hkv
      rcases List.mem_cons.mp hkv with he | hm
      · exact Or.inr he
      · exact Or.inl (List.mem_cons_of_mem _ hm)
    · rw [if_neg hp] at hkv
      rcases List.mem_cons.mp hkv with he | hm
      · exact Or.inl (he ▸ List.mem_cons_self _ _)
      · rcases ih kv hm with h1 | h2
        · exact Or.inl (List.mem_cons_of_mem _ h1)
        · exact Or.inr h2

theorem build_target_index_inv (T : SDO → Prop) :
    ∀ (ts : List SDO) (d : List (String × SDO)),
      (∀ t ∈ ts, T t) →
      (∀ kv ∈ d, T kv.2 ∧ kv.2.id = kv.1) →
      ∀ kv ∈ ts.foldl (fun d t => dsetTarget d t.id t) d, T kv.2 ∧ kv.2.id = kv.1 := by
  intro ts
  induction ts with
  | nil => intro d _ hd kv hkv; exact hd kv hkv
  | cons t rest ih =>
    intro d hT hd kv hkv
    rw [List.foldl_cons] at hkv
    refine ih _ (fun t2 h2 => hT t2 (List.mem_cons_of_mem _ h2)) ?_ kv hkv
    intro kv2 hkv2
    rcases dsetTarget_mem d t.id t kv2 hkv2 with h1 | h2
    · exact hd kv2 h1
    · rw [h2]
      exact ⟨hT t (List.mem_cons_self _ _), rfl⟩

theorem lookupTarget_some (d : List (String × SDO)) (k : String) (o : SDO)
    (h : lookupTarget d k = some o) : ∃ kv ∈ d, kv.1 = k ∧ kv.2 = o := by
  induction d with
  | nil => cases h
  | cons p rest ih =>
    rw [lookupTarget] at h
    by_cases hp : p.1 = k
    · rw [if_pos hp] at h
      exact ⟨p, List.mem_cons_self _ _, hp, Option.some.inj h⟩
    · rw [if_neg hp] at h
      rcases ih h with ⟨kv, hkv, hk, ho⟩
      exact ⟨kv, List.mem_cons_of_mem _ hkv, hk, ho⟩

/-! ## Claim theorems: relationship index -/

/-- C2 (amended): every (object, relationship) entry of the mapping built
by get_related comes from a relationship of the requested type that is
neither revoked nor deprecated, and resolves to an object of the filtered
target set: the object is of the requested target type, not revoked, and
its id is the far end of the edge. Target objects that are merely
deprecated are NOT excluded: the targets query filters only the revoked
flag. -/
theorem get_related_filters (thesrc : Store) (src_type rel_type target_type : String)
    (reverse : Bool) (p : String × List RelatedObj)
    (hp : p ∈ get_related thesrc src_type rel_type target_type reverse)
    (e : RelatedObj) (he : e ∈ p.2) :
    e.relationship.relationship_type = rel_type ∧
    e.relationship.revoked = false ∧
    e.relationship.x_mitre_deprecated = false ∧
    e.object.revoked = false ∧
    e.object ∈ queryType thesrc (if reverse then src_type else target_type) ∧
    e.object.id = (if reverse then e.relationship.source_ref else e.relationship.target_ref) := by
  simp only [get_related, List.mem_map] at hp
  rcases hp with ⟨kv, hkv, hpe⟩
  subst hpe
  simp only [List.mem_filterMap] at he
  rcases he with ⟨rr, hrr, hg⟩
  rcases Option.map_eq_some'.mp hg with ⟨obj, hlook, hobj⟩
  subst hobj
  rw [build_related] at hkv
  have hinv := build_related_inv src_type target_type reverse
      (fun r => r ∈ queryRels thesrc rel_type)
      (queryRels thesrc rel_type) [] (fun r h => h) (fun kv2 h => absurd h (List.not_mem_nil kv2))
      kv hkv rr hrr
  obtain ⟨hrel_mem, hid⟩ := hinv
  have hflags := List.mem_filter.mp hrel_mem
  have hfl := hflags.2
  simp only [Bool.and_eq_true, decide_eq_true_eq] at hfl
  rcases lookupTarget_some _ _ _ hlook with ⟨kv2, hkv2, hk2, ho2⟩
  have htinv := build_target_index_inv
      (fun t => t ∈ queryType thesrc (if reverse then src_type else target_type))
      (queryType thesrc (if reverse then src_type else target_type)) [] (fun t h => h)
      (fun kv3 h => absurd h (List.not_mem_nil kv3)) kv2 hkv2
  obtain ⟨htgt_mem, htgt_id⟩ := htinv
  have hobj_mem : obj ∈ queryType thesrc (if reverse then src_type else target_type) :=
    ho2 ▸ htgt_mem
  have hobj_id : obj.id = rr.id := by
    rw [← hk2, ← ho2]
    exact htgt_id
  have hobj_flags := List.mem_filter.mp hobj_mem
  have hof := hobj_flags.2
  simp only [Bool.and_eq_true, decide_eq_true_eq] at hof
  exact ⟨hfl.1.1, hfl.1.2, hfl.2, hof.2, hobj_mem, by rw [hobj_id, hid]⟩

/-- C2 counterexample: on a store whose single live uses edge points at a
malware object that is deprecated but not revoked, get_related keeps the
deprecated target in its output. -/
theorem get_related_keeps_deprecated_target :
    ∃ p ∈ get_related storeC2 "intrusion-set" "uses" "malware" false,
      ∃ e ∈ p.2, e.object.x_mitre_deprecated = true := by decide

/-- C2 witness: the amended contract evaluated on the concrete store. -/
theorem get_related_filters_witness :
    eC2.relationship.relationship_type = "uses" ∧
    eC2.relationship.revoked = false ∧
    eC2.relationship.x_mitre_deprecated = false ∧
    eC2.object.revoked = false ∧
    eC2.object ∈ queryType storeC2 "malware" ∧
    eC2.object.id = eC2.relationship.target_ref :=
  get_related_filters storeC2 "intrusion-set" "uses" "malware" false pC2 (by decide)
    eC2 (by decide)

/-! ## Claim theorems: dict arithmetic failures in relationships.py -/

/-- C9: the four wrapper functions that combine two get_related dicts with
the + operator always evaluate to the dict-addition TypeError and never
return a merged mapping. -/
theorem software_relations_type_error (thesrc : Store) :
    software_used_by_groups thesrc = Except.error pyDictAddMsg ∧
    (∀ v, software_used_by_groups thesrc ≠ Except.ok v) ∧
    groups_using_software thesrc = Except.error pyDictAddMsg ∧
    (∀ v, groups_using_software thesrc ≠ Except.ok v) ∧
    techniques_used_by_software thesrc = Except.error pyDictAddMsg ∧
    (∀ v, techniques_used_by_software thesrc ≠ Except.ok v) ∧
    software_using_technique thesrc = Except.error pyDictAddMsg ∧
    (∀ v, software_using_technique thesrc ≠ Except.ok v) := by
  refine ⟨rfl, ?_, rfl, ?_, rfl, ?_, rfl, ?_⟩ <;>
    · intro v h
      cases h

/-- C10: parent_technique_of indexes the get_related dict with the integer
key 0, but every key of that dict is a STIX identifier string, so the
lookup always raises KeyError and never returns a value. -/
theorem parent_technique_of_key_error (thesrc : Store) :
    parent_technique_of thesrc = Except.error "KeyError: 0" ∧
    ∀ v, parent_technique_of thesrc ≠ Except.ok v := by
  have hnone : ∀ d : GetRelatedOut, d.find? (fun p => pyStrEqInt p.1 0) = none := by
    intro d
    induction d with
    | nil => rfl
    | cons p rest ih => simp [List.find?, pyStrEqInt, ih]
  have heq : parent_technique_of thesrc = Except.error "KeyError: 0" := by
    rw [parent_technique_of, pyDictGetItemIntKey, hnone]
  refine ⟨heq, ?_⟩
  intro v h
  rw [heq] at h
  cases h

end AttackHeatmap
